import Mathlib

/-!
# Caption Timeline Renderer — verification of the word-reveal logic

Shallow embedding of the caption expression code generated by the
`Apollova` After Effects automation scripts (`Apollova-Mono`,
`Apollova-Nova`, `Apollova-Onyx` variants).  The injected ExtendScript
expressions are pure functions of the playback time `time`, the segment
data baked into the expression text, and (for the Mono/Nova variants) a
1-based segment index read from a control layer.

Modelling conventions:
* JS strings are modelled as `List Char`.
* JS numbers are modelled as `ℚ` (the expressions only use `+ - * /`
  and comparisons); fractional constants are written with `mkRat`
  (`mkRat 3 10` is the source's `0.3`, etc.).
* Expression code that would throw (indexing `words[words.length-1]`
  on an empty array) is modelled with `Option`.
-/

/-- A timed word as baked into the generated expressions
(`{w:"...",s:...}` in Mono/Nova, `{word:"...",start:...,end:...}` in
Onyx).  `word` is the text, `start` the reveal time, `wend` the end
time carried by the Onyx/installer variants (unused by the reveal
logic). -/
structure WordEv where
  word : List Char
  start : ℚ
  wend : ℚ
deriving DecidableEq, Repr

/-- A caption segment as baked into the generated expressions:
`{time:...,text:"...",words:[...],end_time:...}` (Onyx) or
`{t:...,e:...,words:[...]}` (Mono). -/
structure Segment where
  time : ℚ
  endTime : ℚ
  text : List Char
  words : List WordEv
deriving DecidableEq, Repr

/-- Words of `seg` already revealed at time `t`: the generated
expressions keep exactly the words with `time >= word.start`
(`if (t >= currentSeg.words[w].start) revealedWords.push(...)`). -/
def revealedWords (seg : Segment) (t : ℚ) : List WordEv :=
  seg.words.filter (fun w => w.start ≤ t)

/-- Segment locator of the Onyx / installer-Mono expressions:
`for (var i = segments.length - 1; i >= 0; i--) { if (t >= segments[i].time) { currentSeg = segments[i]; break; } }`.
The reverse scan stops at the largest index whose `time` is `≤ t`;
this recursion returns exactly that index (the recursive call covers
the tail, i.e. the higher indices, first). -/
def findActiveSegIdx : List Segment → ℚ → Option Nat
  | [], _ => none
  | s :: rest, t =>
    match findActiveSegIdx rest t with
    | some i => some (i + 1)
    | none => if s.time ≤ t then some 0 else none

/-- The active segment (`currentSeg` in the Onyx expression), if any. -/
def currentSeg (segs : List Segment) (t : ℚ) : Option Segment :=
  match findActiveSegIdx segs t with
  | some i => segs[i]?
  | none => none

/-- JS `Array.prototype.join(sep)`. -/
def jsJoin (sep : List Char) : List (List Char) → List Char
  | [] => []
  | [x] => x
  | x :: y :: xs => x ++ sep ++ jsJoin sep (y :: xs)

/-- The Onyx expression's line chunking:
`for (var i = 0; i < revealedWords.length; i += 3) lines.push(revealedWords.slice(i, min(i+3, len)).join(" "))`. -/
def chunksOf3 : List (List Char) → List (List (List Char))
  | [] => []
  | [a] => [[a]]
  | [a, b] => [[a, b]]
  | a :: b :: c :: rest => [a, b, c] :: chunksOf3 rest

/-- Visible text of one Onyx segment once it is active: revealed words
grouped three per line, lines joined by `"\n"`; a segment without
words falls back to its raw `text` field. -/
def onyxSegText (seg : Segment) (t : ℚ) : List Char :=
  if 0 < seg.words.length then
    jsJoin ['\n'] ((chunksOf3 ((revealedWords seg t).map (fun w => w.word))).map (jsJoin [' ']))
  else seg.text

/-- Full Onyx caption evaluator (locator composed with the per-segment
reveal); `output` stays `""` when no segment is active. -/
def onyxVisibleText (segs : List Segment) (t : ℚ) : List Char :=
  match currentSeg segs t with
  | none => []
  | some seg => onyxSegText seg t

/-- One iteration of the Mono reveal loop.  State: `(output, wordCount)`.
`if (wordCount > 0) { if (wordCount % 4 === 0) output += "\r"; else output += " "; } output += word; wordCount++;` -/
def monoStep (st : List Char × Nat) (w : List Char) : List Char × Nat :=
  let out := if 0 < st.2 then
      (if st.2 % 4 == 0 then st.1 ++ ['\r'] else st.1 ++ [' '])
    else st.1
  (out ++ w, st.2 + 1)

/-- Visible text of one Mono segment: word-by-word reveal, four words
per line, lines separated by `"\r"`. -/
def monoSegText (seg : Segment) (t : ℚ) : List Char :=
  (((revealedWords seg t).map (fun w => w.word)).foldl monoStep ([], 0)).1

/-- Full Mono caption text expression: `segIndex` is the 1-based index
read from the `LYRIC CONTROL` layer;
`if (segIndex < 1 || segIndex > segments.length) ""; else { ... seg = segments[segIndex-1] ... }`. -/
def monoVisibleText (segs : List Segment) (segIndex : ℤ) (t : ℚ) : List Char :=
  if segIndex < 1 ∨ (segs.length : ℤ) < segIndex then []
  else
    match segs[(segIndex - 1).toNat]? with
    | some seg => monoSegText seg t
    | none => []

/-- Modelled from the spec: the `LYRIC CONTROL` layer's
`Lyric Data → Point` channel, which feeds `segIndex` to the Mono/Nova
expressions, is part of the After Effects template and not in the
repository.  Per §4.1 of the spec it carries the 1-based index of the
active segment (the last segment whose start time is `≤ time`), and
a value `< 1` when no segment is active — i.e. exactly the reverse
scan locator shifted by one. -/
def segIndexOf (segs : List Segment) (t : ℚ) : ℤ :=
  match findActiveSegIdx segs t with
  | some i => (i : ℤ) + 1
  | none => 0

/-- One iteration of the Nova reveal loop.  State: `(output, lineLen)`;
25-character budget:
`if (output.length > 0) { if (lineLen + 1 + word.length > maxLen) { output += "\r"; lineLen = 0; } else { output += " "; lineLen += 1; } } output += word; lineLen += word.length;` -/
def novaStep (st : List Char × Nat) (w : List Char) : List Char × Nat :=
  if 0 < st.1.length then
    if 25 < st.2 + 1 + w.length then (st.1 ++ ['\r'] ++ w, w.length)
    else (st.1 ++ [' '] ++ w, st.2 + 1 + w.length)
  else (st.1 ++ w, st.2 + w.length)

/-- Visible text of one Nova segment: word-by-word reveal wrapped to a
25-character line budget, lines separated by `"\r"`. -/
def novaSegText (seg : Segment) (t : ℚ) : List Char :=
  (((revealedWords seg t).map (fun w => w.word)).foldl novaStep ([], 0)).1

/-- Split a character list at every occurrence of `sep` (the spec-side
reading of the `"\r"` line breaks in the produced text). -/
def splitOnChar (sep : Char) : List Char → List (List Char)
  | [] => [[]]
  | c :: cs =>
    if c = sep then [] :: splitOnChar sep cs
    else
      match splitOnChar sep cs with
      | [] => [[c]]
      | l :: ls => (c :: l) :: ls

/-- After Effects' `linear(x, t1, t2, v1, v2)`: linear interpolation
with clamping outside `[t1, t2]`. -/
def jsLinear (x t1 t2 v1 v2 : ℚ) : ℚ :=
  if x ≤ t1 then v1
  else if t2 ≤ x then v2
  else v1 + (v2 - v1) * ((x - t1) / (t2 - t1))

/-- `var wordBlurMax = 15;` of the Mono blur expression. -/
def wordBlurMax : ℚ := 15

/-- `var wordFadeTime = 0.12;` of the Mono blur expression. -/
def wordFadeTime : ℚ := mkRat 12 100

/-- `var fadeDur = 0.15;` of the Mono opacity expression. -/
def fadeDur : ℚ := mkRat 15 100

/-- `var fadeDur = 0.1;` of the Mono tag expressions. -/
def tagFadeDur : ℚ := mkRat 1 10

/-- The reveal-blur loop of `addGaussianBlurToLyricText`:
`var blur = 0; for words: timeSinceWord = time - s; if (timeSinceWord >= 0 && timeSinceWord < wordFadeTime) { wordBlur = wordBlurMax * (1 - timeSinceWord / wordFadeTime); if (wordBlur > blur) blur = wordBlur; }` -/
def blurStep (t : ℚ) (blur : ℚ) (w : WordEv) : ℚ :=
  let ts := t - w.start
  if 0 ≤ ts ∧ ts < wordFadeTime then
    let wordBlur := wordBlurMax * (1 - ts / wordFadeTime)
    if blur < wordBlur then wordBlur else blur
  else blur

/-- The accumulated blur of the loop, starting from `var blur = 0`. -/
def blurFold (t : ℚ) (words : List WordEv) : ℚ :=
  words.foldl (blurStep t) 0

/-- Full Mono blur expression (with the `segIndex` guard returning 0). -/
def monoBlur (segs : List Segment) (segIndex : ℤ) (t : ℚ) : ℚ :=
  if segIndex < 1 ∨ (segs.length : ℤ) < segIndex then 0
  else
    match segs[(segIndex - 1).toNat]? with
    | some seg => blurFold t seg.words
    | none => 0

/-- `addLyricTextOpacity`'s generated expression: fade the caption from
100 to 0 over `fadeDur` once `time` passes the active segment's last
word start plus the 0.3s grace period, stay at 0 until the next
segment starts (or forever on the last segment), otherwise 100.  The
source reads `seg.words[seg.words.length - 1].s`, which throws on a
segment without words; that error case is `none`. -/
def monoOpacity (segs : List Segment) (segIndex : ℤ) (t : ℚ) : Option ℚ :=
  if segIndex < 1 ∨ (segs.length : ℤ) < segIndex then some 0
  else
    match segs[(segIndex - 1).toNat]? with
    | none => none
    | some seg =>
      match seg.words.getLast? with
      | none => none
      | some lw =>
        let lastWordTime := lw.start + mkRat 3 10
        if segIndex < (segs.length : ℤ) then
          match segs[segIndex.toNat]? with
          | none => none
          | some nextSeg =>
            if lastWordTime < t ∧ t < lastWordTime + fadeDur then
              some (jsLinear ((t - lastWordTime) / fadeDur) 0 1 100 0)
            else if lastWordTime + fadeDur ≤ t ∧ t < nextSeg.time then
              some 0
            else
              some 100
        else
          if lastWordTime < t ∧ t < lastWordTime + fadeDur then
            some (jsLinear ((t - lastWordTime) / fadeDur) 0 1 100 0)
          else if lastWordTime + fadeDur ≤ t then
            some 0
          else
            some 100

/-- `setupTagLayer`'s tag opacity expression: the `@apollova-mono` tag
flashes in the gap between two segments, but only when the gap is at
least 0.5s: `if (gapDuration < 0.5) { 0; }`.  Guard:
`if (segIndex < 1 || segIndex >= segments.length) 0;`. -/
def tagOpacity (segs : List Segment) (segIndex : ℤ) (t : ℚ) : Option ℚ :=
  if segIndex < 1 ∨ (segs.length : ℤ) ≤ segIndex then some 0
  else
    match segs[(segIndex - 1).toNat]?, segs[segIndex.toNat]? with
    | some seg, some nextSeg =>
      match seg.words.getLast? with
      | none => none
      | some lw =>
        let lastWordTime := lw.start + mkRat 3 10
        let gapDuration := nextSeg.time - lastWordTime
        let tagStart := lastWordTime + tagFadeDur
        let tagEnd := nextSeg.time - mkRat 2 10
        if gapDuration < mkRat 5 10 then some 0
        else if tagStart ≤ t ∧ t < tagStart + tagFadeDur then
          some (jsLinear ((t - tagStart) / tagFadeDur) 0 1 0 100)
        else if tagStart + tagFadeDur ≤ t ∧ t < tagEnd - tagFadeDur then
          some 100
        else if tagEnd - tagFadeDur ≤ t ∧ t < tagEnd then
          some (jsLinear ((t - (tagEnd - tagFadeDur)) / tagFadeDur) 0 1 100 0)
        else some 0
    | _, _ => none

/-- An upstream JSON numeric field as the scripts see it: either a
number, or something `Number(x)` turns into `NaN`. -/
inductive UpNum where
  | num (q : ℚ)
  | nonNum
deriving DecidableEq, Repr

/-- JS `Number(x) || d`: `NaN` (and `0`, which is falsy) fall back to
`d`; every other number — including negatives — passes through. -/
def jsNumOrDefault : UpNum → ℚ → ℚ
  | .num q, d => if q = 0 then d else q
  | .nonNum, d => d

/-- An upstream word object (`{word: ..., start: ...}`). -/
structure UpWord where
  word : List Char
  start : UpNum
deriving DecidableEq, Repr

/-- An upstream marker/segment (`{time: ..., end_time: ..., words: [...]}`). -/
structure UpMarker where
  time : UpNum
  endTime : UpNum
  words : List UpWord
deriving DecidableEq, Repr

/-- Word ingestion of `buildSegmentsArrayStringWithEnds`:
`var s = Number(word.start) || 0;` (the emitted `s.toFixed(3)` decimal
formatting is not modelled; values are kept exact). -/
def ingestWord (uw : UpWord) : WordEv :=
  { word := uw.word, start := jsNumOrDefault uw.start 0, wend := 0 }

/-- Segment ingestion of `buildSegmentsArrayStringWithEnds`:
`var t = Number(m.time) || 0; var e = Number(m.end_time) || (t + 5);`. -/
def ingestMarker (m : UpMarker) : Segment :=
  let t := jsNumOrDefault m.time 0
  { time := t
    endTime := jsNumOrDefault m.endTime (t + 5)
    text := []
    words := m.words.map ingestWord }

/-- JS whitespace predicate (`\s`, restricted to the escapes the
lyrics pipeline can produce). -/
def isWs (c : Char) : Bool :=
  c == ' ' || c == '\t' || c == '\n' || c == '\r'

/-- Worker for `jsSplitWs`.  `inRun = false`: building the current
component `cur`; `inRun = true`: inside a whitespace run whose
component has already been emitted. -/
def jsSplitAux : Bool → List Char → List Char → List (List Char)
  | false, cur, [] => [cur]
  | false, cur, c :: cs =>
    if isWs c then cur :: jsSplitAux true [] cs
    else jsSplitAux false (cur ++ [c]) cs
  | true, _, [] => [[]]
  | true, _, c :: cs =>
    if isWs c then jsSplitAux true [] cs
    else jsSplitAux false [c] cs

/-- JS `text.split(/\s+/)`: components between maximal whitespace
runs; leading (resp. trailing) whitespace contributes a leading
(resp. trailing) empty component, and `"".split(/\s+/) = [""]`. -/
def jsSplitWs (text : List Char) : List (List Char) :=
  jsSplitAux false [] text

/-- `avgWordDuration = 0.3` of `buildWordsFromText`. -/
def avgWordDuration : ℚ := mkRat 3 10

/-- `buildWordsFromText(text, startTime)`: split on whitespace and give
the word at (0-based) split position `i` the synthesized timing
`start = startTime + i*0.3`, `end = startTime + (i+1)*0.3`, skipping
empty entries (`if (words[i]) { ... }`) without renumbering. -/
def buildWordsFromText (text : List Char) (startTime : ℚ) : List WordEv :=
  (jsSplitWs text).enum.filterMap fun p =>
    if p.2.isEmpty then none
    else some
      { word := p.2
        start := startTime + (p.1 : ℚ) * avgWordDuration
        wend := startTime + ((p.1 : ℚ) + 1) * avgWordDuration }

/-- `convertLyricsToMarkers`'s word source:
`words: seg.words || buildWordsFromText(cleanText, seg.t || 0)`. -/
def markerWords (upWords : Option (List WordEv)) (text : List Char) (segStart : ℚ) :
    List WordEv :=
  match upWords with
  | some ws => ws
  | none => buildWordsFromText text segStart

/-! ## Properties of the segment locator -/

theorem findActiveSegIdx_lt_length {segs : List Segment} {t : ℚ} {i : ℕ}
    (h : findActiveSegIdx segs t = some i) : i < segs.length := by
  induction segs generalizing i with
  | nil => simp [findActiveSegIdx] at h
  | cons s rest ih =>
    rw [findActiveSegIdx] at h
    cases hr : findActiveSegIdx rest t with
    | some j =>
      rw [hr] at h
      simp only [Option.some.injEq] at h
      subst h
      simpa using ih hr
    | none =>
      rw [hr] at h
      by_cases hst : s.time ≤ t
      · simp [hst] at h
        subst h
        simp
      · simp [hst] at h

theorem findActiveSegIdx_time_le {segs : List Segment} {t : ℚ} {i : ℕ}
    (h : findActiveSegIdx segs t = some i) (hi : i < segs.length) :
    (segs.get ⟨i, hi⟩).time ≤ t := by
  induction segs generalizing i with
  | nil => simp [findActiveSegIdx] at h
  | cons s rest ih =>
    rw [findActiveSegIdx] at h
    cases hr : findActiveSegIdx rest t with
    | some j =>
      rw [hr] at h
      simp only [Option.some.injEq] at h
      subst h
      exact ih hr (by simpa using hi)
    | none =>
      rw [hr] at h
      by_cases hst : s.time ≤ t
      · simp [hst] at h
        subst h
        simpa using hst
      · simp [hst] at h

theorem findActiveSegIdx_eq_none_iff {segs : List Segment} {t : ℚ} :
    findActiveSegIdx segs t = none ↔ ∀ s ∈ segs, t < s.time := by
  induction segs with
  | nil => simp [findActiveSegIdx]
  | cons s rest ih =>
    rw [findActiveSegIdx]
    cases hr : findActiveSegIdx rest t with
    | some j =>
      simp only [reduceCtorEq, false_iff]
      intro hall
      have : ∀ s ∈ rest, t < s.time := fun x hx => hall x (List.mem_cons_of_mem _ hx)
      rw [← ih] at this
      simp [this] at hr
    | none =>
      rw [hr] at ih
      by_cases hst : s.time ≤ t
      · simp only [hst, if_pos, reduceCtorEq, false_iff]
        intro hall
        exact absurd (hall s (List.mem_cons_self _ _)) (not_lt.mpr hst)
      · simp only [hst, if_neg, not_false_iff, true_iff]
        intro x hx
        rcases List.mem_cons.mp hx with rfl | hx
        · exact lt_of_not_le hst
        · exact (ih.mp rfl) x hx

theorem findActiveSegIdx_maximal {segs : List Segment} {t : ℚ} {i : ℕ}
    (h : findActiveSegIdx segs t = some i) :
    ∀ j (hj : j < segs.length), (segs.get ⟨j, hj⟩).time ≤ t → j ≤ i := by
  induction segs generalizing i with
  | nil => simp [findActiveSegIdx] at h
  | cons s rest ih =>
    rw [findActiveSegIdx] at h
    cases hr : findActiveSegIdx rest t with
    | some k =>
      rw [hr] at h
      simp only [Option.some.injEq] at h
      subst h
      intro j hj hjt
      match j with
      | 0 => exact Nat.zero_le _
      | j' + 1 =>
        have := ih hr j' (by simpa using hj) (by simpa using hjt)
        omega
    | none =>
      rw [hr] at h
      by_cases hst : s.time ≤ t
      · simp only [hst, if_pos, Option.some.injEq] at h
        subst h
        intro j hj hjt
        match j with
        | 0 => exact Nat.le_refl 0
        | j' + 1 =>
          have hall := findActiveSegIdx_eq_none_iff.mp hr
          have hmem : rest.get ⟨j', by simpa using hj⟩ ∈ rest := List.get_mem _ _ _
          have hlt : t < (rest.get ⟨j', by simpa using hj⟩).time := hall _ hmem
          simp only [List.get_cons_succ] at hjt
          exact absurd hjt (not_le.mpr hlt)
      · simp [hst] at h

/-- In a sorted timeline whose last segment has already started, the
reverse scan stops at the last index. -/
theorem findActiveSegIdx_last {segs : List Segment} {t : ℚ} {sl : Segment}
    (hlast : segs.getLast? = some sl) (hsl : sl.time ≤ t) :
    findActiveSegIdx segs t = some (segs.length - 1) := by
  have hne : segs ≠ [] := by
    intro h
    subst h
    simp at hlast
  have hlen : 0 < segs.length := List.length_pos.mpr hne
  have hget : segs.get ⟨segs.length - 1, by omega⟩ = sl := by
    have h3 : segs.getLast hne = sl := by
      rw [List.getLast?_eq_getLast _ hne] at hlast
      exact Option.some.inj hlast
    rw [List.get_eq_getElem, ← h3, List.getLast_eq_getElem]
  cases hidx : findActiveSegIdx segs t with
  | none =>
    have hall := findActiveSegIdx_eq_none_iff.mp hidx
    have := hall sl (hget ▸ List.get_mem segs (segs.length - 1) (by omega))
    exact absurd hsl (not_le.mpr this)
  | some i =>
    have h1 : i < segs.length := findActiveSegIdx_lt_length hidx
    have h2 := findActiveSegIdx_maximal hidx (segs.length - 1) (by omega) (by rw [hget]; exact hsl)
    congr
    omega

/-- Concrete timeline for the locator witness. -/
def locDemo : List Segment :=
  [{ time := 0, endTime := 3, text := [], words := [] },
   { time := 1, endTime := 4, text := [], words := [] }]

/-- C1.  Segment Locator postcondition: on a timeline ordered by
`startTime`, the reverse scan of the Onyx / installer-Mono expressions
returns the index of the last segment whose `startTime ≤ currentTime`,
and returns the `none` sentinel exactly when the timeline is empty or
`currentTime` precedes the first segment's start; it is a total
function (never throws). -/
theorem segment_locator_postcondition (segs : List Segment) (t : ℚ)
    (hsort : List.Pairwise (fun a b => a.time ≤ b.time) segs) :
    (∀ i, findActiveSegIdx segs t = some i →
      ∃ hi : i < segs.length, (segs.get ⟨i, hi⟩).time ≤ t ∧
        ∀ j (hj : j < segs.length), (segs.get ⟨j, hj⟩).time ≤ t → j ≤ i) ∧
    (findActiveSegIdx segs t = none ↔
      segs = [] ∨ ∃ s₀, segs.head? = some s₀ ∧ t < s₀.time) := by
  constructor
  · intro i h
    exact ⟨findActiveSegIdx_lt_length h,
      findActiveSegIdx_time_le h _, findActiveSegIdx_maximal h⟩
  · rw [findActiveSegIdx_eq_none_iff]
    constructor
    · intro hall
      cases segs with
      | nil => exact Or.inl rfl
      | cons s rest =>
        exact Or.inr ⟨s, rfl, hall s (List.mem_cons_self _ _)⟩
    · rintro (rfl | ⟨s₀, hh, ht⟩)
      · simp
      · intro x hx
        cases segs with
        | nil => simp at hh
        | cons s rest =>
          simp only [List.head?_cons, Option.some.injEq] at hh
          subst hh
          rcases List.mem_cons.mp hx with rfl | hx
          · exact ht
          · have := (List.pairwise_cons.mp hsort).1 x hx
            exact lt_of_lt_of_le ht this

/-- Witness for C1 at a concrete sorted two-segment timeline. -/
theorem segment_locator_postcondition_witness :
    List.Pairwise (fun a b : Segment => a.time ≤ b.time) locDemo ∧
    (findActiveSegIdx locDemo (mkRat 1 2) = none ↔
      locDemo = [] ∨ ∃ s₀, locDemo.head? = some s₀ ∧ mkRat 1 2 < s₀.time) :=
  ⟨by decide, (segment_locator_postcondition locDemo (mkRat 1 2) (by decide)).2⟩

/-! ## Monotone reveal -/

/-- Concrete segment for the monotone-reveal witness. -/
def revealDemo : Segment :=
  { time := 0, endTime := 3, text := []
    words := [⟨"hello".data, 0, 0⟩, ⟨"world".data, 1, 0⟩] }

/-- C4.  Monotone reveal: within one segment, the set of words revealed
at `t1` is contained in the set revealed at `t2` whenever `t1 < t2`; a
revealed word is never hidden again (the reveal predicate
`word.start ≤ time` is monotone in `time`). -/
theorem reveal_monotone (seg : Segment) (t1 t2 : ℚ) (h : t1 < t2) :
    ∀ w ∈ revealedWords seg t1, w ∈ revealedWords seg t2 := by
  intro w hw
  rw [revealedWords, List.mem_filter] at hw ⊢
  exact ⟨hw.1, by
    have := of_decide_eq_true hw.2
    exact decide_eq_true (le_of_lt (lt_of_le_of_lt this h))⟩

/-- Witness for C4 at a concrete segment and times 0 < 2. -/
theorem reveal_monotone_witness :
    (0 : ℚ) < 2 ∧ ∀ w ∈ revealedWords revealDemo 0, w ∈ revealedWords revealDemo 2 :=
  ⟨by decide, reveal_monotone revealDemo 0 2 (by decide)⟩

/-! ## Blur evaluator -/

theorem foldr_max_nonneg (l : List ℚ) : 0 ≤ l.foldr max 0 := by
  induction l with
  | nil => simp
  | cons x xs ih => exact le_trans ih (by simp)

theorem foldr_max_le {l : List ℚ} {B : ℚ} (hB : 0 ≤ B) (h : ∀ x ∈ l, x ≤ B) :
    l.foldr max 0 ≤ B := by
  induction l with
  | nil => simpa
  | cons x xs ih =>
    simp only [List.foldr_cons]
    exact max_le (h x (List.mem_cons_self _ _))
      (ih fun y hy => h y (List.mem_cons_of_mem _ hy))

/-- The per-word blur contribution used by the spec reading of the loop. -/
def wordBlurAt (t : ℚ) (w : WordEv) : ℚ :=
  wordBlurMax * (1 - (t - w.start) / wordFadeTime)

/-- Words currently inside their decay window `[start, start + 0.12)`. -/
def decayingWords (t : ℚ) (words : List WordEv) : List WordEv :=
  words.filter (fun w => 0 ≤ t - w.start ∧ t - w.start < wordFadeTime)

theorem blurStep_foldl_eq (t : ℚ) (words : List WordEv) :
    ∀ a : ℚ, 0 ≤ a →
      words.foldl (blurStep t) a =
        max a (((decayingWords t words).map (wordBlurAt t)).foldr max 0) := by
  induction words with
  | nil =>
    intro a ha
    simp [decayingWords, max_eq_left ha]
  | cons w ws ih =>
    intro a ha
    by_cases hw : 0 ≤ t - w.start ∧ t - w.start < wordFadeTime
    · have hstep : blurStep t a w = max a (wordBlurAt t w) := by
        simp only [blurStep, wordBlurAt]
        rw [if_pos hw]
        rcases lt_or_le a (wordBlurMax * (1 - (t - w.start) / wordFadeTime)) with h | h
        · rw [if_pos h, max_eq_right (le_of_lt h)]
        · rw [if_neg (not_lt.mpr h), max_eq_left h]
      have hfil : decayingWords t (w :: ws) = w :: decayingWords t ws := by
        simp only [decayingWords, List.filter_cons]
        rw [if_pos (decide_eq_true hw)]
      rw [List.foldl_cons, hstep, hfil,
        ih (max a (wordBlurAt t w)) (le_trans ha (le_max_left _ _))]
      simp only [List.map_cons, List.foldr_cons]
      rw [max_assoc]
    · have hstep : blurStep t a w = a := by
        simp only [blurStep]
        rw [if_neg hw]
      have hfil : decayingWords t (w :: ws) = decayingWords t ws := by
        simp only [decayingWords, List.filter_cons]
        rw [if_neg (by simpa using hw)]
      rw [List.foldl_cons, hstep, hfil, ih a ha]

theorem wordFadeTime_pos : 0 < wordFadeTime := by
  rw [wordFadeTime]
  norm_num [Rat.mkRat_eq_div]

theorem wordBlurAt_le {t : ℚ} {w : WordEv} (h : 0 ≤ t - w.start) :
    wordBlurAt t w ≤ wordBlurMax := by
  rw [wordBlurAt]
  have h1 : 0 ≤ (t - w.start) / wordFadeTime :=
    div_nonneg h (le_of_lt wordFadeTime_pos)
  have h2 : (1 : ℚ) - (t - w.start) / wordFadeTime ≤ 1 := by linarith
  calc wordBlurMax * (1 - (t - w.start) / wordFadeTime)
      ≤ wordBlurMax * 1 := by
        refine mul_le_mul_of_nonneg_left h2 ?h
        rw [wordBlurMax]; norm_num
    _ = wordBlurMax := mul_one _

/-- C5.  Blur evaluator: the loop's result is the maximum, over all
words inside their decay window `0 ≤ t - start < 0.12`, of
`15 * (1 - (t - start)/0.12)` (and 0 when no word is decaying — the
fold over the empty list); consequently the blur always lies in
`[0, 15]`. -/
theorem blur_evaluator_spec (seg : Segment) (t : ℚ) :
    blurFold t seg.words =
      ((decayingWords t seg.words).map (wordBlurAt t)).foldr max 0 ∧
    0 ≤ blurFold t seg.words ∧ blurFold t seg.words ≤ wordBlurMax := by
  have h := blurStep_foldl_eq t seg.words 0 (le_refl 0)
  have heq : blurFold t seg.words =
      ((decayingWords t seg.words).map (wordBlurAt t)).foldr max 0 := by
    rw [blurFold, h, max_eq_right (foldr_max_nonneg _)]
  refine ⟨heq, heq ▸ foldr_max_nonneg _, heq ▸ ?hle⟩
  refine foldr_max_le (by rw [wordBlurMax]; norm_num) ?hall
  intro x hx
  rcases List.mem_map.mp hx with ⟨w, hw, rfl⟩
  rw [decayingWords, List.mem_filter] at hw
  have := of_decide_eq_true hw.2
  exact wordBlurAt_le this.1

/-! ## Fixed-count line wrapping -/

/-- Spec-side join of the revealed words: word at 1-based position `k`
is preceded by the line break `br` when `k % n = 0` and by the space
`sp` otherwise — "a line break inserted after every `n` revealed
words". -/
def sepJoinFrom (n : ℕ) (br sp : List Char) : ℕ → List (List Char) → List Char
  | _, [] => []
  | k, w :: ws => (if k % n == 0 then br else sp) ++ w ++ sepJoinFrom n br sp (k + 1) ws

/-- `sepJoinFrom` started at position 1 after the first word. -/
def sepJoin (n : ℕ) (br sp : List Char) : List (List Char) → List Char
  | [] => []
  | w :: ws => w ++ sepJoinFrom n br sp 1 ws

theorem sepJoinFrom_add (n : ℕ) (br sp : List Char) :
    ∀ (ws : List (List Char)) (k : ℕ),
      sepJoinFrom n br sp (k + n) ws = sepJoinFrom n br sp k ws := by
  intro ws
  induction ws with
  | nil => intro k; rfl
  | cons w ws ih =>
    intro k
    simp only [sepJoinFrom]
    rw [Nat.add_mod_right k n, show k + n + 1 = k + 1 + n by omega, ih (k + 1)]

theorem monoStep_foldl (ws : List (List Char)) :
    ∀ (out : List Char) (c : ℕ), 1 ≤ c →
      (ws.foldl monoStep (out, c)).1 = out ++ sepJoinFrom 4 ['\r'] [' '] c ws := by
  induction ws with
  | nil =>
    intro out c _
    simp [sepJoinFrom]
  | cons w ws ih =>
    intro out c hc
    have hm : monoStep (out, c) w =
        (out ++ (if c % 4 == 0 then ['\r'] else [' ']) ++ w, c + 1) := by
      simp only [monoStep]
      rw [if_pos (by omega : 0 < c)]
      by_cases h4 : c % 4 == 0
      · rw [if_pos h4, if_pos h4]
      · rw [if_neg h4, if_neg h4]
    rw [List.foldl_cons, hm, ih _ (c + 1) (by omega)]
    simp [sepJoinFrom, List.append_assoc]

theorem monoSegText_eq_sepJoin (seg : Segment) (t : ℚ) :
    monoSegText seg t =
      sepJoin 4 ['\r'] [' '] ((revealedWords seg t).map (fun w => w.word)) := by
  rw [monoSegText]
  cases h : (revealedWords seg t).map (fun w => w.word) with
  | nil => rfl
  | cons w ws =>
    have h0 : monoStep ([], 0) w = (w, 1) := by
      simp [monoStep]
    rw [List.foldl_cons, h0, monoStep_foldl ws w 1 (le_refl 1), sepJoin]

theorem sepJoin3_cons3 (br sp a b c r : List Char) (rs : List (List Char)) :
    sepJoin 3 br sp (a :: b :: c :: r :: rs) =
      a ++ sp ++ b ++ sp ++ c ++ br ++ sepJoin 3 br sp (r :: rs) := by
  simp only [sepJoin, sepJoinFrom]
  norm_num
  rw [show (4 : ℕ) = 1 + 3 by norm_num, sepJoinFrom_add]

theorem chunksOf3_ne_nil (x : List Char) (xs : List (List Char)) :
    chunksOf3 (x :: xs) ≠ [] := by
  match xs with
  | [] => simp [chunksOf3]
  | [b] => simp [chunksOf3]
  | b :: c :: rest => simp [chunksOf3]

theorem jsJoin_chunksOf3 : ∀ l : List (List Char),
    jsJoin ['\n'] ((chunksOf3 l).map (jsJoin [' '])) = sepJoin 3 ['\n'] [' '] l := by
  intro l
  induction l using chunksOf3.induct with
  | case1 => rfl
  | case2 a => simp [chunksOf3, jsJoin, sepJoin, sepJoinFrom]
  | case3 a b => simp [chunksOf3, jsJoin, sepJoin, sepJoinFrom]
  | case4 a b c rest ih =>
    rw [chunksOf3]
    cases rest with
    | nil => simp [chunksOf3, jsJoin, sepJoin, sepJoinFrom]
    | cons r rs =>
      have hne := chunksOf3_ne_nil r rs
      cases hch : chunksOf3 (r :: rs) with
      | nil => exact absurd hch hne
      | cons m ms =>
        rw [hch] at ih
        simp only [List.map_cons] at ih
        simp only [List.map_cons, jsJoin]
        rw [ih, sepJoin3_cons3]
        simp [List.append_assoc]

/-- The scenario timeline of the spec:
`{time:0, end_time:3, words:[{word:"hello",start:0},{word:"world",start:0.5}]}`. -/
def scenarioSeg : Segment :=
  { time := 0, endTime := 3, text := []
    words := [⟨"hello".data, 0, 0⟩, ⟨"world".data, mkRat 5 10, 0⟩] }

/-- C6.  Fixed-count wrapping and reveal: the Mono text is the revealed
words in original order joined by spaces with a line break after every
4 words, the Onyx text likewise with 3 words per line; and on the
one-segment scenario timeline the composed Mono evaluator shows
`"hello"` at `t = 0.2` and `"hello world"` at `t = 0.6`. -/
theorem fixed_count_wrapping (seg : Segment) (t : ℚ) (hw : 0 < seg.words.length) :
    monoSegText seg t =
      sepJoin 4 ['\r'] [' '] ((revealedWords seg t).map (fun w => w.word)) ∧
    onyxSegText seg t =
      sepJoin 3 ['\n'] [' '] ((revealedWords seg t).map (fun w => w.word)) ∧
    segIndexOf [scenarioSeg] (mkRat 2 10) = 1 ∧
    monoVisibleText [scenarioSeg] 1 (mkRat 2 10) = "hello".data ∧
    monoVisibleText [scenarioSeg] 1 (mkRat 6 10) = "hello world".data := by
  refine ⟨monoSegText_eq_sepJoin seg t, ?onyx, by decide, by decide, by decide⟩
  rw [onyxSegText, if_pos hw, jsJoin_chunksOf3]

/-- Witness for C6 at the scenario segment. -/
theorem fixed_count_wrapping_witness :
    0 < scenarioSeg.words.length ∧
    monoSegText scenarioSeg (mkRat 6 10) =
      sepJoin 4 ['\r'] [' ']
        ((revealedWords scenarioSeg (mkRat 6 10)).map (fun w => w.word)) :=
  ⟨by decide, (fixed_count_wrapping scenarioSeg (mkRat 6 10) (by decide)).1⟩

/-! ## Character-budget line wrapping (Nova) -/

theorem splitOnChar_sepfree {sep : Char} : ∀ {s : List Char}, sep ∉ s →
    splitOnChar sep s = [s] := by
  intro s
  induction s with
  | nil => intro _; rfl
  | cons c cs ih =>
    intro h
    have hc : ¬ c = sep := fun hc => h (hc ▸ List.mem_cons_self _ _)
    have hcs : sep ∉ cs := fun hm => h (List.mem_cons_of_mem _ hm)
    rw [splitOnChar, if_neg hc, ih hcs]

theorem splitOnChar_append_cons {sep : Char} : ∀ {a : List Char} (b : List Char),
    sep ∉ a → splitOnChar sep (a ++ sep :: b) = a :: splitOnChar sep b := by
  intro a
  induction a with
  | nil =>
    intro b _
    simp [splitOnChar]
  | cons c cs ih =>
    intro b h
    have hc : ¬ c = sep := fun hc => h (hc ▸ List.mem_cons_self _ _)
    have hcs : sep ∉ cs := fun hm => h (List.mem_cons_of_mem _ hm)
    simp only [List.cons_append, splitOnChar, if_neg hc, List.append_eq]
    rw [ih b hcs]

theorem jsJoin_cons_ne_nil (sep x : List Char) {l : List (List Char)} (h : l ≠ []) :
    jsJoin sep (x :: l) = x ++ sep ++ jsJoin sep l := by
  cases l with
  | nil => exact absurd rfl h
  | cons y ys => rfl

theorem splitOnChar_jsJoin {sep : Char} : ∀ {L : List (List Char)}, L ≠ [] →
    (∀ l ∈ L, sep ∉ l) → splitOnChar sep (jsJoin [sep] L) = L := by
  intro L
  induction L with
  | nil => intro h _; exact absurd rfl h
  | cons x xs ih =>
    intro _ hfree
    cases xs with
    | nil =>
      rw [jsJoin, splitOnChar_sepfree (hfree x (List.mem_cons_self _ _))]
    | cons y ys =>
      rw [jsJoin_cons_ne_nil [sep] x (by simp)]
      have hsh : x ++ [sep] ++ jsJoin [sep] (y :: ys) = x ++ sep :: jsJoin [sep] (y :: ys) := by
        simp
      rw [hsh, splitOnChar_append_cons _ (hfree x (List.mem_cons_self _ _)),
        ih (by simp) (fun l hl => hfree l (List.mem_cons_of_mem _ hl))]

theorem jsJoin_append_last (sep : List Char) (u : List Char) :
    ∀ (M : List (List Char)) (x : List Char),
      jsJoin sep (M ++ [x]) ++ u = jsJoin sep (M ++ [x ++ u]) := by
  intro M
  induction M with
  | nil => intro x; rfl
  | cons m ms ih =>
    intro x
    rw [List.cons_append, jsJoin_cons_ne_nil sep m (by simp),
      List.cons_append, jsJoin_cons_ne_nil sep m (by simp),
      List.append_assoc _ (jsJoin sep (ms ++ [x])) u, ih x]

theorem jsJoin_concat (sep : List Char) {L : List (List Char)} (h : L ≠ []) (w : List Char) :
    jsJoin sep (L ++ [w]) = jsJoin sep L ++ sep ++ jsJoin sep [w] := by
  induction L with
  | nil => exact absurd rfl h
  | cons m ms ih =>
    cases ms with
    | nil => rfl
    | cons y ys =>
      rw [List.cons_append, jsJoin_cons_ne_nil sep m (by simp),
        jsJoin_cons_ne_nil sep m (by simp : (y :: ys) ≠ []), ih (by simp)]
      simp [List.append_assoc]

theorem jsJoin_sep_eq_nil {sep : Char} {M : List (List Char)} {cur : List Char}
    (h : jsJoin [sep] (M ++ [cur]) = []) : M = [] ∧ cur = [] := by
  cases M with
  | nil => exact ⟨rfl, h⟩
  | cons m ms =>
    rw [List.cons_append, jsJoin_cons_ne_nil [sep] m (by simp)] at h
    rcases List.append_eq_nil.mp h with ⟨h1, -⟩
    rcases List.append_eq_nil.mp h1 with ⟨-, h2⟩
    simp at h2

/-- A produced line is acceptable: within the 25-character budget, or a
single over-long word placed alone on its line. -/
def lineOK (W : List (List Char)) (l : List Char) : Prop :=
  l.length ≤ 25 ∨ (l ∈ W ∧ 25 < l.length)

theorem lineOK_word {W : List (List Char)} {w : List Char} (hw : w ∈ W) : lineOK W w := by
  rcases le_or_lt w.length 25 with h | h
  · exact Or.inl h
  · exact Or.inr ⟨hw, h⟩

theorem nova_fold (W : List (List Char)) :
    ∀ (ws M : List (List Char)) (cur : List Char),
      (∀ w ∈ ws, w ∈ W ∧ '\r' ∉ w) →
      (∀ l ∈ M ++ [cur], lineOK W l ∧ '\r' ∉ l) →
      ∃ (M2 : List (List Char)) (cur2 : List Char),
        ws.foldl novaStep (jsJoin ['\r'] (M ++ [cur]), cur.length) =
          (jsJoin ['\r'] (M2 ++ [cur2]), cur2.length) ∧
        (∀ l ∈ M2 ++ [cur2], lineOK W l ∧ '\r' ∉ l) := by
  intro ws
  induction ws with
  | nil =>
    intro M cur _ hM
    exact ⟨M, cur, rfl, hM⟩
  | cons w ws ih =>
    intro M cur hws hM
    have hw : w ∈ W ∧ '\r' ∉ w := hws w (List.mem_cons_self _ _)
    have hws2 : ∀ x ∈ ws, x ∈ W ∧ '\r' ∉ x :=
      fun x hx => hws x (List.mem_cons_of_mem _ hx)
    rw [List.foldl_cons]
    by_cases hout : 0 < (jsJoin ['\r'] (M ++ [cur])).length
    · by_cases hlen : 25 < cur.length + 1 + w.length
      · -- line break: the current line is flushed, `w` opens a new line
        have hstep : novaStep (jsJoin ['\r'] (M ++ [cur]), cur.length) w =
            (jsJoin ['\r'] ((M ++ [cur]) ++ [w]), w.length) := by
          simp only [novaStep]
          rw [if_pos hout, if_pos hlen, jsJoin_concat ['\r'] (by simp) w]
          rfl
        rw [hstep]
        refine ih (M ++ [cur]) w hws2 ?hlinesBr
        intro l hl
        rcases List.mem_append.mp hl with hl | hl
        · exact hM l hl
        · simp only [List.mem_singleton] at hl
          subst hl
          exact ⟨lineOK_word hw.1, hw.2⟩
      · -- same line: `w` is appended after a space
        have hstep : novaStep (jsJoin ['\r'] (M ++ [cur]), cur.length) w =
            (jsJoin ['\r'] (M ++ [cur ++ ([' '] ++ w)]), cur.length + 1 + w.length) := by
          simp only [novaStep]
          rw [if_pos hout, if_neg hlen, List.append_assoc _ [' '] w,
            jsJoin_append_last ['\r'] ([' '] ++ w) M cur]
        have hclen : cur.length + 1 + w.length = (cur ++ ([' '] ++ w)).length := by
          simp only [List.length_append, List.length_cons, List.length_nil]
          omega
        rw [hstep, hclen]
        refine ih M (cur ++ ([' '] ++ w)) hws2 ?hlinesSp
        intro l hl
        rcases List.mem_append.mp hl with hl | hl
        · exact hM l (List.mem_append_left _ hl)
        · simp only [List.mem_singleton] at hl
          subst hl
          constructor
          · left
            rw [← hclen]
            omega
          · intro hmem
            rcases List.mem_append.mp hmem with hmem | hmem
            · exact (hM cur (by simp)).2 hmem
            · rcases List.mem_cons.mp hmem with hmem | hmem
              · simp at hmem
              · exact hw.2 hmem
    · -- empty output so far: no separator, `w` becomes the first line
      have hnil :=
        jsJoin_sep_eq_nil (List.eq_nil_of_length_eq_zero (Nat.eq_zero_of_not_pos hout))
      rcases hnil with ⟨hMnil, hcur⟩
      subst hMnil
      subst hcur
      have hstep :
          novaStep (jsJoin ['\r'] ([] ++ [([] : List Char)]), ([] : List Char).length) w =
            (jsJoin ['\r'] ([] ++ [w]), w.length) := by
        simp [novaStep, jsJoin]
      rw [hstep]
      refine ih [] w hws2 ?hlinesNil
      intro l hl
      simp only [List.nil_append, List.mem_singleton] at hl
      subst hl
      exact ⟨lineOK_word hw.1, hw.2⟩

/-- C2.  Character-budget wrapping (Nova, 25-character budget): every
line of the produced text is within the budget, except a line that is
exactly one revealed word whose own length exceeds 25 — an over-long
word is placed on a line of its own and never split mid-word
(hypothesis: the baked words contain no line-break character, which
`buildSegmentsArrayString` guarantees by stripping `\r`). -/
theorem nova_line_budget (seg : Segment) (t : ℚ)
    (hfree : ∀ w ∈ seg.words, '\r' ∉ w.word) :
    ∀ line ∈ splitOnChar '\r' (novaSegText seg t),
      line.length ≤ 25 ∨
        (line ∈ (revealedWords seg t).map (fun w => w.word) ∧ 25 < line.length) := by
  set ws := (revealedWords seg t).map (fun w => w.word) with hws
  have h1 : ∀ w ∈ ws, w ∈ ws ∧ '\r' ∉ w := by
    intro w hw
    refine ⟨hw, ?hwr⟩
    rcases List.mem_map.mp hw with ⟨we, hwe, rfl⟩
    exact hfree we (List.mem_filter.mp hwe).1
  have h2 : ∀ l ∈ ([] : List (List Char)) ++ [([] : List Char)],
      lineOK ws l ∧ '\r' ∉ l := by
    intro l hl
    simp only [List.nil_append, List.mem_singleton] at hl
    subst hl
    exact ⟨Or.inl (by simp), by simp⟩
  obtain ⟨M2, cur2, hfold, hlines⟩ := nova_fold ws ws [] [] h1 h2
  have htext : novaSegText seg t = jsJoin ['\r'] (M2 ++ [cur2]) := by
    rw [novaSegText, ← hws]
    have hstart : (jsJoin ['\r'] (([] : List (List Char)) ++ [([] : List Char)]),
        ([] : List Char).length) = (([] : List Char), 0) := rfl
    rw [hstart] at hfold
    rw [hfold]
  rw [htext, splitOnChar_jsJoin (by simp) (fun l hl => (hlines l hl).2)]
  intro line hline
  exact (hlines line hline).1

/-- Concrete segment for the Nova wrapping witness (one 34-character
word and a short one). -/
def novaDemo : Segment :=
  { time := 0, endTime := 3, text := []
    words := [⟨"supercalifragilisticexpialidocious".data, 0, 0⟩, ⟨"hi".data, 1, 0⟩] }

/-- Witness for C2 at a concrete segment containing an over-long word. -/
theorem nova_line_budget_witness :
    (∀ w ∈ novaDemo.words, '\r' ∉ w.word) ∧
    ∀ line ∈ splitOnChar '\r' (novaSegText novaDemo 2),
      line.length ≤ 25 ∨
        (line ∈ (revealedWords novaDemo 2).map (fun w => w.word) ∧ 25 < line.length) :=
  ⟨by decide, nova_line_budget novaDemo 2 (by decide)⟩

/-! ## Pre-reveal emptiness -/

/-- Concrete timeline for the pre-reveal witness: the first segment is
active at `t = 1.5` but its first word starts only at `t = 2`. -/
def preDemo : List Segment :=
  [{ time := 1, endTime := 3, text := [], words := [⟨"hey".data, 2, 0⟩, ⟨"you".data, 3, 0⟩] },
   { time := 5, endTime := 8, text := [], words := [⟨"yo".data, 5, 0⟩] }]

/-- C9.  Pre-reveal emptiness: under the spec's data-model invariants
(segments sorted by start, each next segment starting after the
previous segment's reveals, words sorted within the first segment),
any `currentTime` strictly before the first word's start of the first
segment produces empty visible text in both the Onyx and the Mono
evaluator — whether or not the first segment is already active. -/
theorem pre_reveal_empty (segs : List Segment) (s0 : Segment) (w0 : WordEv) (t : ℚ)
    (hhead : segs.head? = some s0) (hw0 : s0.words.head? = some w0)
    (hsort : List.Pairwise (fun a b => a.time ≤ b.time) segs)
    (hchain : List.Chain' (fun a b => ∀ w ∈ a.words, w.start ≤ b.time) segs)
    (hwsort : List.Pairwise (fun a b : WordEv => a.start ≤ b.start) s0.words)
    (ht : t < w0.start) :
    onyxVisibleText segs t = [] ∧
    monoVisibleText segs (segIndexOf segs t) t = [] := by
  cases segs with
  | nil => simp at hhead
  | cons a rest =>
  simp only [List.head?_cons, Option.some.injEq] at hhead
  cases hhead
  cases hwords : s0.words with
  | nil => rw [hwords] at hw0; simp at hw0
  | cons v0 vtail =>
  rw [hwords] at hw0
  simp only [List.head?_cons, Option.some.injEq] at hw0
  subst hw0
  have hrev : revealedWords s0 t = [] := by
    rw [revealedWords]
    apply List.filter_eq_nil_iff.mpr
    intro w hw
    have hw0w : v0.start ≤ w.start := by
      rw [hwords] at hw
      rcases List.mem_cons.mp hw with rfl | hwtail
      · exact le_refl _
      · exact (List.pairwise_cons.mp (hwords ▸ hwsort)).1 w hwtail
    simp only [decide_eq_true_eq]
    intro hle
    exact absurd (lt_of_lt_of_le ht hw0w) (not_lt.mpr hle)
  cases hidx : findActiveSegIdx (s0 :: rest) t with
  | none =>
    constructor
    · rw [onyxVisibleText, currentSeg, hidx]
    · rw [monoVisibleText, segIndexOf, hidx]
      rw [if_pos (Or.inl (by norm_num))]
  | some i =>
    have hi0 : i = 0 ∧ s0.time ≤ t := by
      rw [findActiveSegIdx] at hidx
      cases hr : findActiveSegIdx rest t with
      | some j =>
        exfalso
        have hjlt := findActiveSegIdx_lt_length hr
        have hjle := findActiveSegIdx_time_le hr hjlt
        have hmem := List.get_mem rest j hjlt
        cases rest with
        | nil => simp at hjlt
        | cons r1 rest2 =>
          have hw0r1 : v0.start ≤ r1.time := by
            have hcc := (List.chain'_cons.mp hchain).1
            exact hcc v0 (hwords ▸ List.mem_cons_self _ _)
          have hr1x : r1.time ≤ ((r1 :: rest2).get ⟨j, hjlt⟩).time := by
            rcases List.mem_cons.mp hmem with heq | hx
            · rw [heq]
            · exact (List.pairwise_cons.mp (List.pairwise_cons.mp hsort).2).1 _ hx
          have : t < t :=
            lt_of_lt_of_le (lt_of_lt_of_le ht (le_trans hw0r1 hr1x)) hjle
          exact lt_irrefl t this
      | none =>
        rw [hr] at hidx
        by_cases hst : s0.time ≤ t
        · rw [if_pos hst] at hidx
          exact ⟨(Option.some.inj hidx).symm, hst⟩
        · rw [if_neg hst] at hidx
          simp at hidx
    obtain ⟨rfl, hst⟩ := hi0
    constructor
    · rw [onyxVisibleText, currentSeg, hidx]
      simp only [List.getElem?_cons_zero]
      rw [onyxSegText, if_pos (by rw [hwords]; simp), hrev]
      rfl
    · rw [monoVisibleText, segIndexOf, hidx]
      rw [if_neg (by push_neg; constructor <;> [norm_num; simp])]
      simp only [Nat.cast_zero, zero_add, Int.toNat_of_nonneg, sub_self, Int.toNat_zero,
        List.getElem?_cons_zero]
      rw [monoSegText, hrev]
      rfl

theorem preDemo_chain :
    List.Chain' (fun a b => ∀ w ∈ a.words, w.start ≤ b.time) preDemo := by
  refine List.chain'_cons.mpr ⟨?ha, List.chain'_singleton _⟩
  decide

/-- Witness for C9 at a concrete two-segment timeline and `t = 1.5`. -/
theorem pre_reveal_empty_witness :
    onyxVisibleText preDemo (mkRat 3 2) = [] ∧
    monoVisibleText preDemo (segIndexOf preDemo (mkRat 3 2)) (mkRat 3 2) = [] :=
  pre_reveal_empty preDemo
    { time := 1, endTime := 3, text := [], words := [⟨"hey".data, 2, 0⟩, ⟨"you".data, 3, 0⟩] }
    ⟨"hey".data, 2, 0⟩ (mkRat 3 2) (by decide) (by decide) (by decide) preDemo_chain
    (by decide) (by decide)

/-! ## Out-of-range behaviour -/

/-- Concrete one-segment timeline used for the out-of-range analysis. -/
def rangeDemo : List Segment :=
  [{ time := 0, endTime := 3, text := "hi".data, words := [⟨"hello".data, 0, 0⟩] }]

/-- C7 counterexample: at `t = 10`, well after the last (only) segment
(whose last word starts at 0 and whose `end_time` is 3), the Onyx
evaluator still shows the fully revealed segment text — not the empty
string the claim asserts — even though the opacity evaluator has gone
to 0. -/
theorem out_of_range_counterexample :
    onyxVisibleText rangeDemo 10 = "hello".data ∧
    onyxVisibleText rangeDemo 10 ≠ [] ∧
    monoOpacity rangeDemo 1 10 = some 0 := by
  refine ⟨by decide, by decide, ?hop⟩
  norm_num [monoOpacity, rangeDemo, jsLinear, fadeDur, Rat.mkRat_eq_div]

/-- C7 amended.  Before the first segment's start both text evaluators
return the empty string and the Mono opacity is 0; after the last
segment (once `t` passes its last word's start + 0.3s grace + 0.15s
fade) the opacity is 0, but the visible text is the last segment's
(fully revealed) text rather than the empty string — it is merely
hidden by the zero opacity.  No case is an error (`some` everywhere). -/
theorem out_of_range_amended (segs : List Segment) (s0 sl : Segment) (lw : WordEv)
    (t t2 : ℚ)
    (hhead : segs.head? = some s0)
    (hsort : List.Pairwise (fun a b => a.time ≤ b.time) segs)
    (ht : t < s0.time)
    (hlast : segs.getLast? = some sl) (hlw : sl.words.getLast? = some lw)
    (ht2a : sl.time ≤ t2) (ht2 : lw.start + mkRat 3 10 + fadeDur ≤ t2) :
    onyxVisibleText segs t = [] ∧
    monoVisibleText segs (segIndexOf segs t) t = [] ∧
    monoOpacity segs (segIndexOf segs t) t = some 0 ∧
    onyxVisibleText segs t2 = onyxSegText sl t2 ∧
    monoOpacity segs (segs.length : ℤ) t2 = some 0 := by
  have hne : segs ≠ [] := by
    intro h
    subst h
    simp at hhead
  have hlen : 0 < segs.length := List.length_pos.mpr hne
  have hall : ∀ s ∈ segs, t < s.time := by
    intro s hs
    cases segs with
    | nil => simp at hhead
    | cons a rest =>
      simp only [List.head?_cons, Option.some.injEq] at hhead
      cases hhead
      rcases List.mem_cons.mp hs with rfl | hs
      · exact ht
      · exact lt_of_lt_of_le ht ((List.pairwise_cons.mp hsort).1 s hs)
  have hnone : findActiveSegIdx segs t = none := findActiveSegIdx_eq_none_iff.mpr hall
  have hlast2 : findActiveSegIdx segs t2 = some (segs.length - 1) :=
    findActiveSegIdx_last hlast ht2a
  have hsl : segs[segs.length - 1]? = some sl := by
    rw [← List.getLast?_eq_getElem?]
    exact hlast
  refine ⟨?ho1, ?hm1, ?hop1, ?ho2, ?hop2⟩
  · rw [onyxVisibleText, currentSeg, hnone]
  · rw [monoVisibleText, segIndexOf, hnone]
    rw [if_pos (Or.inl (by norm_num))]
  · rw [monoOpacity, segIndexOf, hnone]
    rw [if_pos (Or.inl (by norm_num))]
  · rw [onyxVisibleText, currentSeg, hlast2]
    simp only [hsl]
  · have hidx : ((segs.length : ℤ) - 1).toNat = segs.length - 1 := by omega
    have hnofade : ¬ (lw.start + mkRat 3 10 < t2 ∧ t2 < lw.start + mkRat 3 10 + fadeDur) := by
      rintro ⟨-, h2⟩
      exact absurd ht2 (not_le.mpr h2)
    simp only [monoOpacity]
    rw [if_neg (by push_neg; omega)]
    simp only [hidx, hsl, hlw]
    rw [if_neg (by omega : ¬ ((segs.length : ℤ)) < (segs.length : ℤ))]
    rw [if_neg hnofade, if_pos ht2]

theorem rangeFact : (0 : ℚ) + mkRat 3 10 + fadeDur ≤ 10 := by
  norm_num [fadeDur, Rat.mkRat_eq_div]

/-- Witness for the amended C7 at the concrete one-segment timeline,
`t = -1` (before the first segment) and `t2 = 10` (after the last). -/
theorem out_of_range_amended_witness :
    onyxVisibleText rangeDemo (-1) = [] ∧
    monoVisibleText rangeDemo (segIndexOf rangeDemo (-1)) (-1) = [] ∧
    monoOpacity rangeDemo (segIndexOf rangeDemo (-1)) (-1) = some 0 ∧
    onyxVisibleText rangeDemo 10 =
      onyxSegText { time := 0, endTime := 3, text := "hi".data, words := [⟨"hello".data, 0, 0⟩] } 10 ∧
    monoOpacity rangeDemo ((rangeDemo.length : ℤ)) 10 = some 0 :=
  out_of_range_amended rangeDemo
    { time := 0, endTime := 3, text := "hi".data, words := [⟨"hello".data, 0, 0⟩] }
    { time := 0, endTime := 3, text := "hi".data, words := [⟨"hello".data, 0, 0⟩] }
    ⟨"hello".data, 0, 0⟩ (-1) 10 (by decide) (by decide) (by decide) (by decide)
    (by decide) (by decide) rangeFact

/-! ## Short-gap behaviour -/

/-- First segment of the short-gap scenario: its last word starts at
0.7, so `lastWordTime = 0.7 + 0.3 = 1`. -/
def gapDemoA : Segment :=
  { time := 0, endTime := 1, text := [], words := [⟨"a".data, mkRat 7 10, 0⟩] }

/-- Second segment of the short-gap scenario, starting at 1.3 — a 0.3s
gap, below the 0.5s threshold. -/
def gapDemoB : Segment :=
  { time := mkRat 13 10, endTime := 2, text := [], words := [⟨"b".data, mkRat 13 10, 0⟩] }

/-- C3 counterexample: the gap is 0.3s (< 0.5s), yet the caption
opacity evaluator does NOT skip its fade — halfway through the 0.15s
fade (at `t = 1.075`) it returns 50, not the claimed 100.  The
short-gap test `gapDuration < 0.5` exists only in the TAG layer
expressions. -/
theorem short_gap_counterexample :
    gapDemoB.time - (mkRat 7 10 + mkRat 3 10) = mkRat 3 10 ∧
    mkRat 3 10 < mkRat 5 10 ∧
    monoOpacity [gapDemoA, gapDemoB] 1 (mkRat 43 40) = some 50 := by
  refine ⟨?hgap, by decide, ?hop⟩
  · norm_num [gapDemoB, Rat.mkRat_eq_div]
  · norm_num [monoOpacity, gapDemoA, gapDemoB, jsLinear, fadeDur, Rat.mkRat_eq_div]

/-- C3 amended.  The short-gap exception lives in the tag-layer
opacity evaluator of `setupTagLayer`: whenever the gap between the
active segment's `lastWordTime` (last word start + 0.3s) and the next
segment's start is below 0.5s, the tag opacity is 0 at every time `t`
(the tag flash is suppressed); the caption opacity evaluator has no
short-gap exception and runs its normal fade-out. -/
theorem short_gap_amended (segs : List Segment) (i : ℕ) (sA sB : Segment) (lw : WordEv)
    (t : ℚ)
    (hA : segs[i]? = some sA) (hB : segs[i + 1]? = some sB)
    (hlw : sA.words.getLast? = some lw)
    (hgap : sB.time - (lw.start + mkRat 3 10) < mkRat 5 10) :
    tagOpacity segs ((i : ℤ) + 1) t = some 0 := by
  have hlenB : i + 1 < segs.length := (List.getElem?_eq_some.mp hB).1
  have hidx1 : (((i : ℤ) + 1) - 1).toNat = i := by omega
  have hidx2 : ((i : ℤ) + 1).toNat = i + 1 := by omega
  simp only [tagOpacity]
  rw [if_neg (by push_neg; omega)]
  simp only [hidx1, hidx2, hA, hB, hlw]
  rw [if_pos hgap]

theorem gapFact :
    gapDemoB.time - ((⟨"a".data, mkRat 7 10, 0⟩ : WordEv).start + mkRat 3 10) < mkRat 5 10 := by
  norm_num [gapDemoB, Rat.mkRat_eq_div]

/-- Witness for the amended C3 at the concrete 0.3s-gap timeline. -/
theorem short_gap_amended_witness :
    tagOpacity [gapDemoA, gapDemoB] ((0 : ℤ) + 1) (mkRat 43 40) = some 0 :=
  short_gap_amended [gapDemoA, gapDemoB] 0 gapDemoA gapDemoB ⟨"a".data, mkRat 7 10, 0⟩
    (mkRat 43 40) (by decide) (by decide) (by decide) gapFact

/-! ## Input sanitisation -/

/-- C8 counterexample: a word arriving with the negative numeric
`start = -2` is NOT clamped by `Number(word.start) || 0` — the
ingested `WordEv` the core sees has `startTime = -2 < 0`, refuting the
claim that every ingested start time is `≥ 0`. -/
theorem sanitisation_counterexample :
    (ingestWord ⟨"a".data, UpNum.num (-2)⟩).start = -2 ∧
    ¬ (0 ≤ (ingestWord ⟨"a".data, UpNum.num (-2)⟩).start) := by
  constructor <;> decide

/-- C8 amended.  `Number(x) || 0` resp. `Number(x) || (t+5)` coerces a
non-numeric field to the default and also sends the (falsy) number 0
to the default, but passes every other number — negatives included —
through unchanged: the ingestion step never clamps negative start
times to 0. -/
theorem sanitisation_amended (w : List Char) (q : ℚ) (e : UpNum) (uws : List UpWord) :
    (ingestWord ⟨w, UpNum.nonNum⟩).start = 0 ∧
    (ingestWord ⟨w, UpNum.num q⟩).start = (if q = 0 then 0 else q) ∧
    (ingestMarker ⟨UpNum.nonNum, e, uws⟩).time = 0 ∧
    (ingestMarker ⟨UpNum.num q, e, uws⟩).time = (if q = 0 then 0 else q) := by
  refine ⟨rfl, rfl, rfl, rfl⟩

/-! ## Synthesized word timings -/

theorem filterMap_if_eq_map {α β : Type} (F : α → β) (p : α → Bool)
    (l : List α) (h : ∀ x ∈ l, ¬ p x) :
    l.filterMap (fun x => if p x then none else some (F x)) = l.map F := by
  induction l with
  | nil => rfl
  | cons x xs ih =>
    rw [List.filterMap_cons, if_neg (by simpa using h x (List.mem_cons_self _ _)),
      List.map_cons, ih (fun y hy => h y (List.mem_cons_of_mem _ hy))]

/-- C10.  Synthesized word timings: on trimmed text (no empty split
components), `buildWordsFromText` yields one `WordEv` per
whitespace-separated word, the `i`-th (0-based) starting at
`startTime + 0.3*i` and ending at `startTime + 0.3*(i+1)`. -/
theorem build_words_spec (text : List Char) (st : ℚ)
    (h : ∀ w ∈ jsSplitWs text, w ≠ []) :
    buildWordsFromText text st =
      (jsSplitWs text).enum.map (fun p =>
        { word := p.2
          start := st + (p.1 : ℚ) * avgWordDuration
          wend := st + ((p.1 : ℚ) + 1) * avgWordDuration }) := by
  rw [buildWordsFromText]
  apply filterMap_if_eq_map
  intro p hp
  have hmem : p.2 ∈ jsSplitWs text := List.snd_mem_of_mem_enum hp
  simpa using h p.2 hmem

/-- Witness for C10 on the trimmed text `"hello world"`. -/
theorem build_words_spec_witness :
    buildWordsFromText "hello world".data 0 =
      (jsSplitWs "hello world".data).enum.map (fun p =>
        { word := p.2
          start := 0 + (p.1 : ℚ) * avgWordDuration
          wend := 0 + ((p.1 : ℚ) + 1) * avgWordDuration }) :=
  build_words_spec "hello world".data 0 (by decide)
